import Mathlib

/-!
Verification development for the Secret Santa Trustee program (Trustee.py).

The program is shallowly embedded below:
* Python lists become Lean `List`s.
* The standard library PRNG-driven `random.shuffle` (Fisher-Yates, one draw
  `randbelow(i+1)` per position `i` from `len-1` down to `1`) is embedded as
  `shuffle`, parameterised by a stream `d : Nat → Nat` of raw draws; the draw
  used at position `i` is `d i % (i+1)`, which ranges over exactly the values
  `randbelow` can return.
* The unbounded `while True` loop of `gen_derangement` is embedded with an
  explicit fuel parameter; `none` means the fuel was exhausted, `some m`
  means the loop returned the mapping `m` (the Python `dict(zip(...))`,
  represented as the association list `zip givers receivers`, which is
  faithful because the givers are distinct).
* The interactive reveal loop of `main` becomes a function from the list of
  input lines to the list of observable events.
* The filesystem touched by `write_tmp_assign` / `exit_cleanup` becomes an
  explicit state: the recorded temp path and the set of existing paths.
-/

namespace Trustee

/-- Python `str.strip()` on the underlying character list: drop leading and
trailing whitespace.  (Defined on `List Char` so that concrete instances
reduce in the kernel; Lean's `String.trim` is iterator-based and does not.) -/
def stripList (l : List Char) : List Char :=
  ((l.dropWhile Char.isWhitespace).reverse.dropWhile Char.isWhitespace).reverse

/-- Python `str.strip()`. -/
def pyStrip (s : String) : String := String.mk (stripList s.data)

/-- Python `str.lower()`. -/
def pyLower (s : String) : String := String.mk (s.data.map Char.toLower)

/-- Python `str.split(",")` on the character list: cut at every comma,
keeping empty pieces (`"".split(",") == [""]`). -/
def splitCommaAux (acc : List Char) : List Char → List (List Char)
  | [] => [acc.reverse]
  | c :: rest =>
    if c = ',' then acc.reverse :: splitCommaAux [] rest
    else splitCommaAux (c :: acc) rest

/-- Python `str.split(",")`. -/
def pySplitComma (s : String) : List String :=
  (splitCommaAux [] s.data).map String.mk

/-- Python `selection.isdigit()` followed by `int(selection)`: `some n` for a
non-empty all-ASCII-digits string, `none` otherwise. -/
def pyToNat? (s : String) : Option Nat :=
  if s.data ≠ [] ∧ s.data.all Char.isDigit then
    some (s.data.foldl (fun n c => n * 10 + (c.toNat - 48)) 0)
  else none

/-- Swap the elements at positions `i` and `j` of a list; out-of-range
indices leave the list unchanged.  This is the elementary step
`x[i], x[j] = x[j], x[i]` of the Fisher-Yates shuffle. -/
def listSwap (l : List α) (i j : Nat) : List α :=
  match l[i]?, l[j]? with
  | some a, some b => (l.set i b).set j a
  | _, _ => l

/-- Fisher-Yates steps at positions `i, i-1, ..., 1`: at position `k` the
element at `k` is swapped with the one at `d k % (k+1)`, exactly the
`reversed(range(1, len(x)))` loop of CPython's `random.shuffle`. -/
def shuffleFrom (d : Nat → Nat) : Nat → List α → List α
  | 0, l => l
  | i + 1, l => shuffleFrom d i (listSwap l (i + 1) (d (i + 1) % (i + 2)))

/-- `random.shuffle`, driven by the draw stream `d`. -/
def shuffle (d : Nat → Nat) (l : List α) : List α :=
  shuffleFrom d (l.length - 1) l

/-- The acceptance test of `gen_derangement`:
`all(g != r for g, r in zip(givers, receivers))`. -/
def noSelfGift (givers receivers : List String) : Bool :=
  (givers.zip receivers).all fun gr => decide (gr.1 ≠ gr.2)

/-- The `while True` body of `gen_derangement`: shuffle the receivers in
place, accept if no giver is paired with themselves, otherwise loop.
`k` is the iteration counter selecting the draws `R k` for this round,
`fuel` bounds the number of iterations that can be observed. -/
def genLoop (givers : List String) (R : Nat → Nat → Nat) :
    Nat → Nat → List String → Option (List (String × String))
  | _, 0, _ => none
  | k, fuel + 1, receivers =>
    if noSelfGift givers (shuffle (R k) receivers) then
      some (givers.zip (shuffle (R k) receivers))
    else genLoop givers R (k + 1) fuel (shuffle (R k) receivers)

/-- `gen_derangement(names)`: both `givers` and `receivers` start as copies
of `names`; the receivers are then repeatedly shuffled in place until the
acceptance test passes. -/
def gen_derangement (R : Nat → Nat → Nat) (names : List String) (fuel : Nat) :
    Option (List (String × String)) :=
  genLoop names R 0 fuel names

/-- Lookup in the assignments dictionary (`assignments[real_name]`),
`none` standing for a `KeyError`. -/
def dictGet (assignments : List (String × String)) (k : String) : Option String :=
  (assignments.find? fun pr => pr.1 == k).map Prod.snd

/-- Seeding then generating: `random.seed(seed)` fixes the PRNG state, so the
draw stream is a function `prng` of the seed alone, and the whole generation
process consumes draws from that stream. -/
def seededRun (prng : Int → Nat → Nat → Nat) (seed : Int)
    (names : List String) (fuel : Nat) : Option (List (String × String)) :=
  gen_derangement (prng seed) names fuel

/-- The keep-first de-duplication loop of `prompt_names` (`seen` / `uniq`). -/
def dedupFirstAux (seen : List String) : List String → List String
  | [] => []
  | n :: rest =>
    if n ∈ seen then dedupFirstAux seen rest
    else n :: dedupFirstAux (n :: seen) rest

/-- Parsing of the raw input line of `prompt_names`:
`[n.strip() for n in raw.split(",") if n.strip()]` applied to
`input("> ").strip()`. -/
def parseNames (raw : String) : List String :=
  ((pySplitComma (pyStrip raw)).map pyStrip).filter fun n => n != ""

/-- `prompt_names`, as a function of the raw input line: de-duplicate the
parsed names keeping first occurrences; with fewer than 2 distinct names the
program calls `sys.exit(1)` (embedded as `.error 1`), otherwise the
de-duplicated list is returned. -/
def prompt_names (raw : String) : Except Nat (List String) :=
  let uniq := dedupFirstAux [] (parseNames raw)
  if uniq.length < 2 then .error 1 else .ok uniq

/-- The filesystem-visible state owned by the program: the global
`TMP_ASSIGN_PATH` and the set of paths that currently exist. -/
structure StoreState where
  tmpAssignPath : Option String
  files : List String
deriving DecidableEq, Repr

/-- `exit_cleanup`: remove the temporary assignment file if the global path
is set (and truthy, i.e. non-empty) and the file exists.  Removing a path
deletes every file at that path (paths are unique in a filesystem, so
`filter` is the faithful embedding of `os.remove`). -/
def exit_cleanup (s : StoreState) : StoreState :=
  match s.tmpAssignPath with
  | some p =>
    if p ≠ "" ∧ p ∈ s.files then ⟨some p, s.files.filter fun q => q != p⟩
    else s
  | none => s

/-- `write_tmp_assign`: create the artifact at a fresh path (`mkstemp`) and
record the path in the global. -/
def write_tmp_assign (s : StoreState) (freshPath : String) : StoreState :=
  ⟨some freshPath, freshPath :: s.files⟩

/-- Result of the startup phase of `main` (name collection, generation,
persisting).  `outOfFuel` is the fuel-exhaustion artifact of the embedding
of the unbounded sampling loop. -/
inductive StartupResult where
  | insufficient : Nat → StartupResult
  | outOfFuel : StartupResult
  | started : List (String × String) → StartupResult
deriving DecidableEq, Repr

/-- The startup phase of `main`: `prompt_names`, then `gen_derangement`,
then `write_tmp_assign`.  On a `prompt_names` failure the process exits
with that code before any mapping is generated and before any artifact is
created, so the store state is returned untouched. -/
def mainStartup (raw : String) (R : Nat → Nat → Nat) (fuel : Nat)
    (s : StoreState) (freshPath : String) : StartupResult × StoreState :=
  match prompt_names raw with
  | .error c => (.insufficient c, s)
  | .ok names =>
    match gen_derangement R names fuel with
    | none => (.outOfFuel, s)
    | some m => (.started m, write_tmp_assign s freshPath)

/-- Default behavior constants of Trustee.py. -/
def ONE_SHOT_REVEAL_DEFAULT : Bool := true

/-- Default for the press-Enter-to-clear behavior. -/
def REVEAL_NEEDS_ENTER_DEFAULT : Bool := true

/-- The values the `reveal_timeout_sec` variable can take in Python: the
literal `False` (the module default) or an `int`.  Python's `False` is an
instance of `int` equal to `0`, which `toInt` makes explicit. -/
inductive TimeoutVal where
  | pyFalse : TimeoutVal
  | pyInt : Int → TimeoutVal
deriving DecidableEq, Repr

/-- The integer value Python arithmetic and comparisons see. -/
def TimeoutVal.toInt : TimeoutVal → Int
  | .pyFalse => 0
  | .pyInt n => n

/-- Module default `REVEAL_TIMEOUT_SEC_DEFAULT = False`. -/
def REVEAL_TIMEOUT_SEC_DEFAULT : TimeoutVal := .pyFalse

/-- The parsed command-line arguments. -/
structure Args where
  allow_repeat : Bool
  timeout : Option Int
  no_enter : Bool
  seed : Option Int
deriving DecidableEq, Repr

/-- The runtime configuration computed at the top of `main`. -/
structure RunConfig where
  one_shot_reveal : Bool
  reveal_needs_enter : Bool
  reveal_timeout_sec : TimeoutVal
deriving DecidableEq, Repr

/-- The configuration block of `main` (lines 163-172): `--no-enter` is
checked first and forces `needs_enter = False`, `timeout = 0`; otherwise a
given `--timeout N` selects timed mode with `N`; otherwise the module
defaults apply. -/
def configure (a : Args) : RunConfig :=
  if a.no_enter then ⟨!a.allow_repeat, false, .pyInt 0⟩
  else
    match a.timeout with
    | some t => ⟨!a.allow_repeat, false, .pyInt t⟩
    | none => ⟨!a.allow_repeat, REVEAL_NEEDS_ENTER_DEFAULT, REVEAL_TIMEOUT_SEC_DEFAULT⟩

/-- The observable actions of `wait_then_clear`. -/
inductive ClearAction where
  | waitEnter : ClearAction
  | noticeImmediate : ClearAction
  | noticeTimed : Int → ClearAction
  | sleep : Int → ClearAction
  | clear : ClearAction
deriving DecidableEq, Repr

/-- `wait_then_clear(needs_enter, timeout_sec)` as its trace of observable
actions.  The Python guard `isinstance(timeout_sec, int) and timeout_sec >= 0`
holds for every `TimeoutVal` with non-negative `toInt` (including `False`,
which is an `int` equal to `0`); `timeout_sec == 0` compares the integer
values.  The final screen clear always happens. -/
def wait_then_clear (needs_enter : Bool) (timeout_sec : TimeoutVal) : List ClearAction :=
  if needs_enter then [.waitEnter, .clear]
  else if 0 ≤ timeout_sec.toInt then
    if timeout_sec.toInt = 0 then [.noticeImmediate, .clear]
    else [.noticeTimed timeout_sec.toInt, .sleep timeout_sec.toInt, .clear]
  else [.clear]

/-- The observable events of the reveal loop of `main`.  Each constructor
corresponds to one of the loop's printed messages or terminations; the
`revealed` event carries the dictionary lookup (`none` would be the
`KeyError` path, never reached for resolved participants). -/
inductive Event where
  | emptyPrompt : Event
  | exited : Event
  | notFound : Event
  | ambiguous : List String → Event
  | canceled : Event
  | alreadyViewed : String → Event
  | revealed : String → Option String → Event
  | eof : Event
deriving DecidableEq, Repr

/-- How the inner disambiguation loop ends: the input stream ran out
(`EOFError` propagating to the outer handler), the user canceled, or a
participant was chosen. -/
inductive DisambOutcome where
  | eofEnd : DisambOutcome
  | cancel : DisambOutcome
  | chosen : String → DisambOutcome
deriving DecidableEq, Repr

/-- The inner `while True` selection loop for an ambiguous query: read a
line, strip it; re-prompt on empty input; `cancel`/`abort`/`back`
(case-insensitive) cancels; an all-digits entry in `1..len(candidates)`
selects by 1-based ordinal (out of range re-prompts); an exact candidate
name selects it; anything else re-prompts.  Returns the outcome and the
number of input lines consumed. -/
def resolveDisamb (candidates : List String) : List String → DisambOutcome × Nat
  | [] => (.eofEnd, 0)
  | s :: rest =>
    let selection := pyStrip s
    if selection = "" then
      let r := resolveDisamb candidates rest
      (r.1, r.2 + 1)
    else if pyLower selection = "cancel" ∨ pyLower selection = "abort" ∨
        pyLower selection = "back" then
      (.cancel, 1)
    else
      match pyToNat? selection with
      | some idx =>
        if 1 ≤ idx ∧ idx ≤ candidates.length then
          (.chosen (candidates.getD (idx - 1) ""), 1)
        else
          let r := resolveDisamb candidates rest
          (r.1, r.2 + 1)
      | none =>
        if selection ∈ candidates then (.chosen selection, 1)
        else
          let r := resolveDisamb candidates rest
          (r.1, r.2 + 1)

/-- The reveal step for a resolved participant (lines 253-262): in one-shot
mode a participant already in the view ledger is rejected and the ledger is
unchanged; otherwise the recipient is displayed and the participant is added
to the ledger. -/
def revealOutcome (one_shot : Bool) (assignments : List (String × String))
    (viewed : List String) (real_name : String) : Event × List String :=
  if one_shot ∧ real_name ∈ viewed then (.alreadyViewed real_name, viewed)
  else (.revealed real_name (dictGet assignments real_name), real_name :: viewed)

/-- The interactive reveal loop of `main`, as a function from the remaining
input lines to the emitted events.  `names` is the de-duplicated participant
list; the case-insensitive index `lc_to_names[key]` is the sublist of
`names` whose lowercasing equals `key`, in entry order, which is exactly
`names.filter`.  Exhausting the input list is end-of-input (`EOFError`). -/
def session (one_shot : Bool) (names : List String)
    (assignments : List (String × String)) (viewed : List String) :
    List String → List Event
  | [] => [.eof]
  | q :: rest =>
    let query := pyStrip q
    if query = "" then
      .emptyPrompt :: session one_shot names assignments viewed rest
    else if pyLower query = "exit" ∨ pyLower query = "quit" then
      [.exited]
    else
      let candidates := names.filter fun n => pyLower n == pyLower query
      if candidates.isEmpty then
        .notFound :: session one_shot names assignments viewed rest
      else if query ∈ candidates then
        let r := revealOutcome one_shot assignments viewed query
        r.1 :: session one_shot names assignments r.2 rest
      else if candidates.length = 1 then
        let r := revealOutcome one_shot assignments viewed (candidates.getD 0 "")
        r.1 :: session one_shot names assignments r.2 rest
      else
        match resolveDisamb candidates rest with
        | (.eofEnd, _) => [.ambiguous candidates, .eof]
        | (.cancel, n) =>
          .ambiguous candidates :: .canceled ::
            session one_shot names assignments viewed (rest.drop n)
        | (.chosen rn, n) =>
          let r := revealOutcome one_shot assignments viewed rn
          .ambiguous candidates :: r.1 ::
            session one_shot names assignments r.2 (rest.drop n)
  termination_by l => l.length
  decreasing_by
    all_goals simp [List.length_drop]
    all_goals omega

/-! ### Permutation facts about the embedded shuffle -/

theorem cons_set_perm {t : List α} {k : Nat} {b : α} (h : t[k]? = some b) (a : α) :
    (b :: t.set k a).Perm (a :: t) := by
  induction t generalizing k with
  | nil => simp at h
  | cons c t' ih =>
    cases k with
    | zero =>
      have hcb : b = c := by simpa using h.symm
      rw [hcb]
      simpa using List.Perm.swap a c t'
    | succ k =>
      simp only [List.getElem?_cons_succ] at h
      have h1 : (b :: c :: t'.set k a).Perm (c :: b :: t'.set k a) := List.Perm.swap c b _
      have h2 : (c :: b :: t'.set k a).Perm (c :: a :: t') := List.Perm.cons c (ih h)
      have h3 : (c :: (a :: t')).Perm (a :: c :: t') := List.Perm.swap a c t'
      simpa using (h1.trans h2).trans h3

theorem set_set_swap_perm : ∀ (l : List α) (i j : Nat) (a b : α),
    l[i]? = some a → l[j]? = some b → ((l.set i b).set j a).Perm l := by
  intro l
  induction l with
  | nil => intro i j a b hi _; simp at hi
  | cons x t ih =>
    intro i j a b hi hj
    cases i with
    | zero =>
      have hxa : a = x := by simpa using hi.symm
      cases j with
      | zero =>
        rw [show ((x :: t).set 0 b).set 0 a = a :: t by simp, hxa]
      | succ m =>
        have hm : t[m]? = some b := by simpa using hj
        rw [← hxa]
        simpa using cons_set_perm hm a
    | succ n =>
      cases j with
      | zero =>
        have hn : t[n]? = some a := by simpa using hi
        have hxb : b = x := by simpa using hj.symm
        rw [← hxb]
        simpa using cons_set_perm hn b
      | succ m =>
        simp only [List.getElem?_cons_succ] at hi hj
        simpa using List.Perm.cons x (ih n m a b hi hj)

theorem listSwap_perm (l : List α) (i j : Nat) : (listSwap l i j).Perm l := by
  cases hi : l[i]? with
  | none => simp only [listSwap, hi]; exact List.Perm.refl l
  | some a =>
    cases hj : l[j]? with
    | none => simp only [listSwap, hi, hj]; exact List.Perm.refl l
    | some b =>
      simp only [listSwap, hi, hj]
      exact set_set_swap_perm l i j a b hi hj

theorem shuffleFrom_perm (d : Nat → Nat) (i : Nat) :
    ∀ l : List α, (shuffleFrom d i l).Perm l := by
  induction i with
  | zero => intro l; exact List.Perm.refl l
  | succ i ih =>
    intro l
    exact (ih _).trans (listSwap_perm l (i + 1) (d (i + 1) % (i + 2)))

theorem shuffle_perm (d : Nat → Nat) (l : List α) : (shuffle d l).Perm l :=
  shuffleFrom_perm d _ l

/-! ### The shuffle-and-check loop -/

theorem noSelfGift_iff {g r : List String} :
    noSelfGift g r = true ↔ ∀ p ∈ g.zip r, p.1 ≠ p.2 := by
  simp [noSelfGift]

theorem genLoop_some_spec {givers : List String} {R : Nat → Nat → Nat} :
    ∀ {fuel k : Nat} {recv : List String} {m : List (String × String)},
      recv.Perm givers → genLoop givers R k fuel recv = some m →
      m.map Prod.fst = givers ∧ (m.map Prod.snd).Perm givers ∧ ∀ p ∈ m, p.1 ≠ p.2 := by
  intro fuel
  induction fuel with
  | zero => intro k recv m _ h; simp [genLoop] at h
  | succ fuel ih =>
    intro k recv m hperm h
    have hsh : (shuffle (R k) recv).Perm givers := (shuffle_perm _ _).trans hperm
    cases hok : noSelfGift givers (shuffle (R k) recv) with
    | false =>
      simp only [genLoop, hok, Bool.false_eq_true, if_false] at h
      exact ih hsh h
    | true =>
      simp only [genLoop, hok, if_true, Option.some.injEq] at h
      subst h
      refine ⟨List.map_fst_zip _ _ (le_of_eq hsh.length_eq.symm), ?_, ?_⟩
      · rw [List.map_snd_zip _ _ (le_of_eq hsh.length_eq)]
        exact hsh
      · exact noSelfGift_iff.mp hok

/-- C1: for every list of two or more distinct participant names, any mapping
returned by `gen_derangement` is a permutation of that set of names with zero
fixed points: its keys are exactly the names in order, its values are a
permutation of the names, each name occurs exactly once as key and once as
value, every pair assigns a recipient different from the giver, and the
looked-up recipient of any participant differs from that participant. -/
theorem gen_derangement_is_derangement
    (names : List String) (hnd : names.Nodup) (h2 : 2 ≤ names.length)
    (R : Nat → Nat → Nat) (fuel : Nat) (m : List (String × String))
    (hm : gen_derangement R names fuel = some m) :
    m.map Prod.fst = names ∧ (m.map Prod.snd).Perm names ∧
    (∀ p ∈ m, p.1 ≠ p.2) ∧
    (∀ n ∈ names, (m.map Prod.fst).count n = 1 ∧ (m.map Prod.snd).count n = 1) ∧
    (∀ p q, dictGet m p = some q → q ≠ p) := by
  obtain ⟨hfst, hsnd, hne⟩ := genLoop_some_spec (List.Perm.refl names) hm
  refine ⟨hfst, hsnd, hne, ?_, ?_⟩
  · intro n hn
    constructor
    · rw [hfst]
      exact List.count_eq_one_of_mem hnd hn
    · rw [hsnd.count_eq]
      exact List.count_eq_one_of_mem hnd hn
  · intro p q hq
    unfold dictGet at hq
    cases hf : m.find? (fun pr => pr.1 == p) with
    | none => rw [hf] at hq; simp at hq
    | some pr =>
      rw [hf] at hq
      simp only [Option.map_some'] at hq
      have hmem := List.mem_of_find?_eq_some hf
      have hpr1 : pr.1 = p := by simpa using List.find?_some hf
      have hner := hne pr hmem
      have hq2 : pr.2 = q := by simpa using hq
      rw [← hq2, ← hpr1]
      exact fun h => hner h.symm

/-- Concrete instantiation of `gen_derangement_is_derangement` discharging
its hypotheses on `["A", "B"]` with the constant-0 draw stream. -/
theorem gen_derangement_is_derangement_witness :
    (["A", "B"] : List String).Nodup ∧ 2 ≤ (["A", "B"] : List String).length ∧
    gen_derangement (fun _ _ => 0) ["A", "B"] 1 = some [("A", "B"), ("B", "A")] ∧
    ([("A", "B"), ("B", "A")] : List (String × String)).map Prod.fst = ["A", "B"] :=
  ⟨by decide, by decide, rfl,
    (gen_derangement_is_derangement ["A", "B"] (by decide) (by decide)
      (fun _ _ => 0) 1 [("A", "B"), ("B", "A")] rfl).1⟩

/-- C2: generation is deterministic under seeding: the seeded PRNG stream is
a function of the seed alone, so two runs with equal seeds and the same
participant list produce identical mappings. -/
theorem seeded_generation_deterministic (prng : Int → Nat → Nat → Nat)
    (seed1 seed2 : Int) (names : List String) (fuel : Nat) (h : seed1 = seed2) :
    seededRun prng seed1 names fuel = seededRun prng seed2 names fuel := by
  rw [h]

/-- Concrete instantiation of `seeded_generation_deterministic`. -/
theorem seeded_generation_deterministic_witness :
    (42 : Int) = 42 ∧
    seededRun (fun _ _ _ => 0) 42 ["A", "B"] 1 = seededRun (fun _ _ _ => 0) 42 ["A", "B"] 1 :=
  ⟨rfl, seeded_generation_deterministic (fun _ _ _ => 0) 42 42 ["A", "B"] 1 rfl⟩

/-- A list permuting a two-element list is one of its two arrangements. -/
theorem perm_pair {l : List α} {a b : α} (h : l.Perm [a, b]) :
    l = [a, b] ∨ l = [b, a] := by
  have hlen := h.length_eq
  match l, hlen with
  | [x, y], _ =>
    have hx : x ∈ [a, b] := h.subset (List.mem_cons_self x [y])
    rcases List.mem_cons.mp hx with hxa | hxb
    · subst hxa
      have : [y].Perm [b] := h.cons_inv
      left
      rw [List.perm_singleton.mp this]
    · have hxb' : x = b := by simpa using hxb
      subst hxb'
      have h2 : ([x, y] : List α).Perm [x, a] := h.trans (List.Perm.swap x a [])
      have : [y].Perm [a] := h2.cons_inv
      right
      rw [List.perm_singleton.mp this]

/-- In the two-participant loop, every accepted shuffle is the swap. -/
theorem genLoop_pair {A B : String} (hab : A ≠ B) {R : Nat → Nat → Nat} :
    ∀ {fuel k : Nat} {recv : List String} {m : List (String × String)},
      recv.Perm [A, B] → genLoop [A, B] R k fuel recv = some m →
      m = [(A, B), (B, A)] := by
  intro fuel
  induction fuel with
  | zero => intro k recv m _ h; simp [genLoop] at h
  | succ fuel ih =>
    intro k recv m hperm h
    have hsh : (shuffle (R k) recv).Perm [A, B] := (shuffle_perm _ _).trans hperm
    rcases perm_pair hsh with hs | hs
    · have hno : noSelfGift [A, B] (shuffle (R k) recv) = false := by
        rw [hs]; simp [noSelfGift]
      simp only [genLoop, hno, Bool.false_eq_true, if_false] at h
      exact ih hsh h
    · have hyes : noSelfGift [A, B] (shuffle (R k) recv) = true := by
        rw [hs]
        simp [noSelfGift, List.zip, hab, Ne.symm hab]
      simp only [genLoop, hyes, if_true, Option.some.injEq] at h
      rw [← h, hs]
      simp [List.zip]

/-- C9: for exactly two distinct names `[A, B]`, every terminating run of
`gen_derangement` returns exactly the swap `[(A, B), (B, A)]`. -/
theorem gen_derangement_two_is_swap (A B : String) (hab : A ≠ B)
    (R : Nat → Nat → Nat) (fuel : Nat) (m : List (String × String))
    (h : gen_derangement R [A, B] fuel = some m) : m = [(A, B), (B, A)] :=
  genLoop_pair hab (List.Perm.refl _) h

/-- Concrete instantiation of `gen_derangement_two_is_swap`. -/
theorem gen_derangement_two_is_swap_witness :
    ("A" : String) ≠ "B" ∧
    ([("A", "B"), ("B", "A")] : List (String × String)) = [("A", "B"), ("B", "A")] :=
  ⟨by decide,
    gen_derangement_two_is_swap "A" "B" (by decide) (fun _ _ => 0) 1
      [("A", "B"), ("B", "A")] rfl⟩

/-! ### Reachability of every permutation by the embedded shuffle -/

theorem listSwap_eq {l : List α} {i j : Nat} (hi : i < l.length) (hj : j < l.length) :
    listSwap l i j = (l.set i l[j]).set j l[i] := by
  simp [listSwap, List.getElem?_eq_getElem, hi, hj]

theorem listSwap_getElem?_left {l : List α} {i j : Nat}
    (hi : i < l.length) (hj : j < l.length) : (listSwap l i j)[i]? = l[j]? := by
  rw [listSwap_eq hi hj]
  by_cases hij : i = j
  · subst hij
    rw [List.getElem?_set_self (by simpa using hi), List.getElem?_eq_getElem hj]
  · rw [List.getElem?_set_ne (fun h => hij h.symm),
      List.getElem?_set_self hi, List.getElem?_eq_getElem hj]

theorem listSwap_getElem?_other {l : List α} {i j k : Nat}
    (hki : k ≠ i) (hkj : k ≠ j) : (listSwap l i j)[k]? = l[k]? := by
  cases hi : l[i]? with
  | none => simp [listSwap, hi]
  | some a =>
    cases hj : l[j]? with
    | none => simp [listSwap, hi, hj]
    | some b =>
      simp only [listSwap, hi, hj]
      rw [List.getElem?_set_ne (fun h => hkj h.symm),
        List.getElem?_set_ne (fun h => hki h.symm)]

theorem shuffleFrom_congr {d d' : Nat → Nat} :
    ∀ (i : Nat) (l : List α), (∀ k, k ≤ i → d k = d' k) →
      shuffleFrom d i l = shuffleFrom d' i l := by
  intro i
  induction i with
  | zero => intro l _; rfl
  | succ i ih =>
    intro l h
    simp only [shuffleFrom]
    rw [h (i + 1) (Nat.le_refl _)]
    exact ih _ fun k hk => h k (Nat.le_succ_of_le hk)

/-- Every rearrangement of a duplicate-free list is produced by some draw
stream: the shuffle can land on any permutation of its input.  The
agreement hypothesis says `l` and `t` already coincide above position `i`,
the positions the remaining Fisher-Yates steps no longer touch. -/
theorem shuffleFrom_surj [DecidableEq α] :
    ∀ (i : Nat) (l t : List α), l.Nodup → l.Perm t →
      (∀ k, i < k → l[k]? = t[k]?) → i < l.length →
      ∃ d, shuffleFrom d i l = t := by
  intro i
  induction i with
  | zero =>
    intro l t hnd hperm hagree hlt
    refine ⟨fun _ => 0, ?_⟩
    show l = t
    have hlen := hperm.length_eq
    match l, t, hlt, hlen, hnd, hperm, hagree with
    | x :: l', y :: t', _, _, hnd, hperm, hagree =>
      have htail : l' = t' := by
        apply List.ext_getElem?
        intro n
        simpa using hagree (n + 1) (Nat.succ_pos n)
      subst htail
      have hxy : x = y := by
        have hmem : x ∈ y :: l' := hperm.subset (List.mem_cons_self x l')
        rcases List.mem_cons.mp hmem with h | h
        · exact h
        · exact absurd h (by simpa using (List.nodup_cons.mp hnd).1)
      rw [hxy]
  | succ i ih =>
    intro l t hnd hperm hagree hlt
    have hlen : l.length = t.length := hperm.length_eq
    have hti : i + 1 < t.length := hlen ▸ hlt
    have htmem : t[i + 1] ∈ t := List.getElem_mem hti
    have hlm : t[i + 1] ∈ l := hperm.mem_iff.mpr htmem
    have hndt : t.Nodup := hperm.nodup_iff.mp hnd
    have hjlt : l.indexOf t[i + 1] < l.length := List.indexOf_lt_length.mpr hlm
    have hlj : l[l.indexOf t[i + 1]] = t[i + 1] := List.getElem_indexOf hjlt
    have hjle : l.indexOf t[i + 1] ≤ i + 1 := by
      by_contra hgt
      push_neg at hgt
      have hjq := hagree _ hgt
      have hjt : l.indexOf t[i + 1] < t.length := hlen ▸ hjlt
      have hljq : l[l.indexOf t[i + 1]]? = some t[i + 1] :=
        (List.getElem?_eq_getElem hjlt).trans (congrArg some hlj)
      have hv : t[l.indexOf t[i + 1]] = t[i + 1] :=
        Option.some.inj ((List.getElem?_eq_getElem hjt).symm.trans (hjq.symm.trans hljq))
      have heq := (hndt.getElem_inj_iff).mp hv
      omega
    have hl'p : (listSwap l (i + 1) (l.indexOf t[i + 1])).Perm l := listSwap_perm _ _ _
    have hl'nd : (listSwap l (i + 1) (l.indexOf t[i + 1])).Nodup := hl'p.nodup_iff.mpr hnd
    have hl'perm : (listSwap l (i + 1) (l.indexOf t[i + 1])).Perm t := hl'p.trans hperm
    have hl'len : (listSwap l (i + 1) (l.indexOf t[i + 1])).length = l.length :=
      hl'p.length_eq
    have hagree' : ∀ k, i < k → (listSwap l (i + 1) (l.indexOf t[i + 1]))[k]? = t[k]? := by
      intro k hk
      rcases Nat.lt_or_ge (i + 1) k with hgt | hge
      · rw [listSwap_getElem?_other (by omega) (by omega)]
        exact hagree k hgt
      · have hk1 : k = i + 1 := by omega
        subst hk1
        rw [listSwap_getElem?_left hlt hjlt, List.getElem?_eq_getElem hjlt, hlj,
          List.getElem?_eq_getElem hti]
    obtain ⟨d', hd'⟩ := ih (listSwap l (i + 1) (l.indexOf t[i + 1])) t hl'nd hl'perm hagree'
      (by omega)
    refine ⟨fun k => if k = i + 1 then l.indexOf t[i + 1] else d' k, ?_⟩
    simp only [shuffleFrom, if_true]
    rw [Nat.mod_eq_of_lt (by omega)]
    rw [shuffleFrom_congr i _ fun k hk => if_neg (by omega)]
    exact hd'

/-- Top-level form: from any duplicate-free receivers list, any permutation
of it is reachable by one call to the embedded `random.shuffle`. -/
theorem shuffle_surj [DecidableEq α] {l t : List α}
    (hnd : l.Nodup) (hperm : l.Perm t) (h1 : 1 ≤ l.length) :
    ∃ d, shuffle d l = t := by
  have hlen := hperm.length_eq
  obtain ⟨d, hd⟩ := shuffleFrom_surj (l.length - 1) l t hnd hperm
    (fun k hk => by
      rw [List.getElem?_eq_none (by omega), List.getElem?_eq_none (by omega)])
    (by omega)
  exact ⟨d, hd⟩

/-- Rotating a duplicate-free list of length at least 2 by one position
yields a fixed-point-free assignment, so the acceptance test passes. -/
theorem noSelfGift_rotate {names : List String}
    (hnd : names.Nodup) (h2 : 2 ≤ names.length) :
    noSelfGift names (names.rotate 1) = true := by
  rw [noSelfGift_iff]
  intro p hp
  obtain ⟨i, hilt, hip⟩ := List.mem_iff_getElem.mp hp
  have hzl : (names.zip (names.rotate 1)).length = names.length := by
    simp [List.length_zip, List.length_rotate]
  have hi1 : i < names.length := by omega
  have hi2 : i < (names.rotate 1).length := by simpa [List.length_rotate] using hi1
  rw [List.getElem_zip] at hip
  intro hcontra
  rw [← hip] at hcontra
  simp only at hcontra
  rw [List.getElem_rotate] at hcontra
  have heq : i = (i + 1) % names.length := hnd.getElem_inj_iff.mp hcontra
  rcases Nat.lt_or_ge (i + 1) names.length with hlt | hge
  · rw [Nat.mod_eq_of_lt hlt] at heq
    omega
  · have hieq : i + 1 = names.length := by omega
    rw [hieq, Nat.mod_self] at heq
    omega

/-- C7: the rejection-sampling loop can always accept: from every loop state
(any receivers list that is a rearrangement of the distinct names, which
covers the initial state and all states after rejected rounds), there is a
draw stream under which the very next shuffle produces a fixed-point-free
permutation and the loop returns.  Each round's acceptance set is therefore
non-empty, which is what makes the `while True` loop terminate with
probability 1 under the real PRNG. -/
theorem genLoop_always_can_accept
    (names recv : List String) (k : Nat)
    (hnd : names.Nodup) (h2 : 2 ≤ names.length) (hperm : recv.Perm names) :
    ∃ R m, genLoop names R k 1 recv = some m := by
  have hrnd : recv.Nodup := hperm.nodup_iff.mpr hnd
  have hpr : recv.Perm (names.rotate 1) := hperm.trans (List.rotate_perm names 1).symm
  have h1 : 1 ≤ recv.length := by
    have := hperm.length_eq
    omega
  obtain ⟨d, hd⟩ := shuffle_surj hrnd hpr h1
  refine ⟨fun _ => d, names.zip (names.rotate 1), ?_⟩
  have hacc : noSelfGift names (names.rotate 1) = true := noSelfGift_rotate hnd h2
  simp only [genLoop, hd, hacc, if_true]

/-- Concrete instantiation of `genLoop_always_can_accept` from a
mid-loop state. -/
theorem genLoop_always_can_accept_witness :
    (["B", "A"] : List String).Perm ["A", "B"] ∧
    ∃ R m, genLoop ["A", "B"] R 1 1 ["B", "A"] = some m :=
  ⟨by decide,
    genLoop_always_can_accept ["A", "B"] ["B", "A"] 1 (by decide) (by decide) (by decide)⟩

/-- C5: store teardown is idempotent: invoking `exit_cleanup` when the
artifact was never created is a no-op; invoking it twice equals invoking it
once; and after any invocation no artifact remains at the recorded path
(whether or not it still existed), in particular right after creation. -/
theorem exit_cleanup_idempotent :
    (∀ fs : List String, exit_cleanup ⟨none, fs⟩ = ⟨none, fs⟩) ∧
    (∀ s : StoreState, exit_cleanup (exit_cleanup s) = exit_cleanup s) ∧
    (∀ (s : StoreState) (p : String), s.tmpAssignPath = some p → p ≠ "" →
      p ∉ (exit_cleanup s).files) ∧
    (∀ (s : StoreState) (p : String), p ≠ "" →
      p ∉ (exit_cleanup (write_tmp_assign s p)).files) := by
  refine ⟨fun fs => rfl, ?_, ?_, ?_⟩
  · intro s
    rcases s with ⟨tp, fs⟩
    cases tp with
    | none => rfl
    | some p =>
      by_cases h : p ≠ "" ∧ p ∈ fs
      · have h1 : exit_cleanup ⟨some p, fs⟩ = ⟨some p, fs.filter fun q => q != p⟩ := by
          simp [exit_cleanup, h]
        rw [h1]
        have h2 : ¬(p ≠ "" ∧ p ∈ fs.filter fun q => q != p) := by
          rintro ⟨-, hm⟩
          have := List.mem_filter.mp hm
          simp at this
        simp [exit_cleanup, h2]
      · have h1 : exit_cleanup ⟨some p, fs⟩ = ⟨some p, fs⟩ := by
          simp [exit_cleanup, h]
        rw [h1, h1]
  · intro s p hp hne
    rcases s with ⟨tp, fs⟩
    have hp' : tp = some p := hp
    subst hp'
    by_cases h : p ≠ "" ∧ p ∈ fs
    · simp [exit_cleanup, h]
    · have hnm : p ∉ fs := fun hm => h ⟨hne, hm⟩
      simpa [exit_cleanup, h] using hnm
  · intro s p hne
    simp [write_tmp_assign, exit_cleanup, hne]

/-- Concrete instantiation of `exit_cleanup_idempotent`: creating the
artifact and tearing it down leaves nothing at the recorded path. -/
theorem exit_cleanup_idempotent_witness :
    ("p" : String) ≠ "" ∧
    "p" ∉ (exit_cleanup (write_tmp_assign ⟨none, []⟩ "p")).files :=
  ⟨by decide, exit_cleanup_idempotent.2.2.2 ⟨none, []⟩ "p" (by decide)⟩

/-- C6: with fewer than 2 distinct entered names, `prompt_names` exits with
the non-zero status 1, and the startup sequence of `main` returns that
failure before any mapping is generated and with the store state untouched
(no artifact created). -/
theorem insufficient_participants_fatal (raw : String)
    (h : (dedupFirstAux [] (parseNames raw)).length < 2) :
    prompt_names raw = .error 1 ∧ (1 : Nat) ≠ 0 ∧
    ∀ (R : Nat → Nat → Nat) (fuel : Nat) (s : StoreState) (freshPath : String),
      mainStartup raw R fuel s freshPath = (.insufficient 1, s) := by
  have hp : prompt_names raw = .error 1 := by simp [prompt_names, h]
  refine ⟨hp, by omega, ?_⟩
  intro R fuel s fresh
  simp [mainStartup, hp]

/-- Concrete instantiation of `insufficient_participants_fatal` on the
single entered name `"Bob"`. -/
theorem insufficient_participants_fatal_witness :
    (dedupFirstAux [] (parseNames "Bob")).length < 2 ∧
    prompt_names "Bob" = .error 1 :=
  ⟨by decide, (insufficient_participants_fatal "Bob" (by decide)).1⟩

/-- C8: `--no-enter` takes precedence over any `--timeout` value, selecting
timed auto-clear with duration 0; timed auto-clear with duration 0 notifies
and clears immediately with no sleep; with duration `d > 0` it emits a
notice carrying exactly `d`, sleeps `d` seconds, then clears. -/
theorem no_enter_precedence_and_timed_clear (a : Args) (hne : a.no_enter = true) :
    configure a = ⟨!a.allow_repeat, false, .pyInt 0⟩ ∧
    wait_then_clear false (.pyInt 0) = [.noticeImmediate, .clear] ∧
    ∀ d : Int, 0 < d →
      wait_then_clear false (.pyInt d) = [.noticeTimed d, .sleep d, .clear] := by
  refine ⟨by simp [configure, hne], rfl, ?_⟩
  intro d hd
  simp [wait_then_clear, TimeoutVal.toInt, hd.le, hd.ne']

/-- Concrete instantiation of `no_enter_precedence_and_timed_clear` with
both `--no-enter` and `--timeout 7` given. -/
theorem no_enter_precedence_and_timed_clear_witness :
    (Args.mk false (some 7) true none).no_enter = true ∧
    configure ⟨false, some 7, true, none⟩ = ⟨true, false, .pyInt 0⟩ :=
  ⟨rfl, (no_enter_precedence_and_timed_clear ⟨false, some 7, true, none⟩ rfl).1⟩

/-! ### The reveal session -/

/-- Stepping the session on a query that resolves by exact match: the loop
routes the resolved participant through the reveal step. -/
theorem session_cons_resolved (one_shot : Bool) (names : List String)
    (asg : List (String × String)) (viewed : List String)
    (p : String) (rest : List String)
    (hq : pyStrip p = p) (hne : p ≠ "")
    (hex : ¬(pyLower p = "exit" ∨ pyLower p = "quit"))
    (hmem : p ∈ names) :
    session one_shot names asg viewed (p :: rest) =
      (revealOutcome one_shot asg viewed p).1 ::
        session one_shot names asg (revealOutcome one_shot asg viewed p).2 rest := by
  have hcand : p ∈ names.filter fun n => pyLower n == pyLower p :=
    List.mem_filter.mpr ⟨hmem, by simp⟩
  have hni : (names.filter fun n => pyLower n == pyLower p).isEmpty = false := by
    cases hc : names.filter fun n => pyLower n == pyLower p with
    | nil => rw [hc] at hcand; cases hcand
    | cons a l => rfl
  simp only [session, hq]
  rw [if_neg hne, if_neg hex, hni]
  rw [if_neg (by simp), if_pos hcand]

/-- C3: one-shot enforcement.  After a participant has revealed once (is in
the view ledger), a later query resolving to them in one-shot mode yields the
already-viewed notice, reveals nothing and leaves the ledger unchanged; a
participant not yet in the ledger is revealed and recorded at that moment
(the ledger is written exactly when the assignment is displayed); with
`--allow-repeat` the query always succeeds and displays the same recipient
`dictGet asg p` that the first reveal displayed. -/
theorem one_shot_enforcement (names : List String) (asg : List (String × String))
    (viewed : List String) (p : String) (rest : List String)
    (hq : pyStrip p = p) (hne : p ≠ "")
    (hex : ¬(pyLower p = "exit" ∨ pyLower p = "quit")) (hmem : p ∈ names) :
    (p ∈ viewed →
      session true names asg viewed (p :: rest) =
        .alreadyViewed p :: session true names asg viewed rest) ∧
    (p ∉ viewed →
      session true names asg viewed (p :: rest) =
        .revealed p (dictGet asg p) :: session true names asg (p :: viewed) rest) ∧
    (session false names asg viewed (p :: rest) =
      .revealed p (dictGet asg p) :: session false names asg (p :: viewed) rest) := by
  refine ⟨?_, ?_, ?_⟩
  · intro hv
    rw [session_cons_resolved true names asg viewed p rest hq hne hex hmem]
    simp [revealOutcome, hv]
  · intro hv
    rw [session_cons_resolved true names asg viewed p rest hq hne hex hmem]
    simp [revealOutcome, hv]
  · rw [session_cons_resolved false names asg viewed p rest hq hne hex hmem]
    simp [revealOutcome]

/-- Concrete instantiation of `one_shot_enforcement`: a second query by
`"Bob"` in one-shot mode is rejected with the already-viewed notice. -/
theorem one_shot_enforcement_witness :
    pyStrip "Bob" = "Bob" ∧ ("Bob" : String) ∈ ["Bob", "Alice"] ∧
    session true ["Bob", "Alice"] [("Bob", "Alice"), ("Alice", "Bob")] ["Bob"] ["Bob"] =
      .alreadyViewed "Bob" ::
        session true ["Bob", "Alice"] [("Bob", "Alice"), ("Alice", "Bob")] ["Bob"] [] :=
  ⟨by decide, by decide,
    (one_shot_enforcement ["Bob", "Alice"] [("Bob", "Alice"), ("Alice", "Bob")]
      ["Bob"] "Bob" [] (by decide) (by decide) (by decide) (by decide)).1 (by decide)⟩

/-- C10: a query whose stripped, lowercased form is `exit` or `quit` always
terminates the session — the exit check precedes name lookup, so this holds
for any participant list, including one containing a participant literally
named `exit` or `quit` (which `prompt_names` accepts, second conjunct); such
a participant can never reveal their assignment by entering their own name. -/
theorem exit_query_always_terminates (os : Bool) (names : List String)
    (asg : List (String × String)) (viewed : List String)
    (q : String) (rest : List String)
    (h : pyLower (pyStrip q) = "exit" ∨ pyLower (pyStrip q) = "quit") :
    session os names asg viewed (q :: rest) = [.exited] ∧
    prompt_names "exit, quit" = .ok ["exit", "quit"] := by
  have hne : pyStrip q ≠ "" := by
    intro h0
    rw [h0] at h
    exact absurd h (by decide)
  constructor
  · simp only [session]
    rw [if_neg hne, if_pos h]
  · rfl

/-- Concrete instantiation of `exit_query_always_terminates`: the session
with a participant literally named `exit` still terminates on `EXIT`. -/
theorem exit_query_always_terminates_witness :
    (pyLower (pyStrip "EXIT") = "exit" ∨ pyLower (pyStrip "EXIT") = "quit") ∧
    session true ["exit", "Bob"] [("exit", "Bob"), ("Bob", "exit")] [] ["EXIT"] = [.exited] :=
  ⟨by decide,
    (exit_query_always_terminates true ["exit", "Bob"] [("exit", "Bob"), ("Bob", "exit")]
      [] "EXIT" [] (by decide)).1⟩

/-- The cancel keywords end the disambiguation loop after one input. -/
theorem resolveDisamb_cancel (cs : List String) (sel : String) (more : List String)
    (hne : pyStrip sel ≠ "")
    (hk : pyLower (pyStrip sel) = "cancel" ∨ pyLower (pyStrip sel) = "abort" ∨
      pyLower (pyStrip sel) = "back") :
    resolveDisamb cs (sel :: more) = (.cancel, 1) := by
  simp only [resolveDisamb]
  rw [if_neg hne, if_pos hk]

/-- An in-range 1-based ordinal selects that candidate after one input. -/
theorem resolveDisamb_ordinal (cs : List String) (sel : String) (more : List String)
    (idx : Nat) (hne : pyStrip sel ≠ "")
    (hnc : ¬(pyLower (pyStrip sel) = "cancel" ∨ pyLower (pyStrip sel) = "abort" ∨
      pyLower (pyStrip sel) = "back"))
    (hdig : pyToNat? (pyStrip sel) = some idx)
    (h1 : 1 ≤ idx) (h2 : idx ≤ cs.length) :
    resolveDisamb cs (sel :: more) = (.chosen (cs.getD (idx - 1) ""), 1) := by
  simp only [resolveDisamb, hdig]
  rw [if_neg hne, if_neg hnc, if_pos ⟨h1, h2⟩]

/-- An exact candidate name (that is not all digits and not a cancel
keyword) selects that candidate after one input. -/
theorem resolveDisamb_exact (cs : List String) (sel : String) (more : List String)
    (hq : pyStrip sel = sel) (hne : sel ≠ "")
    (hnc : ¬(pyLower sel = "cancel" ∨ pyLower sel = "abort" ∨ pyLower sel = "back"))
    (hdig : pyToNat? sel = none) (hmem : sel ∈ cs) :
    resolveDisamb cs (sel :: more) = (.chosen sel, 1) := by
  simp only [resolveDisamb, hq, hdig]
  rw [if_neg hne, if_neg hnc, if_pos hmem]

/-- Stepping the session on a query that matches two or more case-variant
candidates and none of them exactly: the session lists the candidates and
defers to the disambiguation loop. -/
theorem session_cons_ambiguous (os : Bool) (names : List String)
    (asg : List (String × String)) (viewed : List String)
    (query : String) (rest : List String)
    (hq : pyStrip query = query) (hne : query ≠ "")
    (hex : ¬(pyLower query = "exit" ∨ pyLower query = "quit"))
    (hnm : query ∉ names.filter fun n => pyLower n == pyLower query)
    (h2 : 2 ≤ (names.filter fun n => pyLower n == pyLower query).length) :
    session os names asg viewed (query :: rest) =
      match resolveDisamb (names.filter fun n => pyLower n == pyLower query) rest with
      | (.eofEnd, _) =>
        [.ambiguous (names.filter fun n => pyLower n == pyLower query), .eof]
      | (.cancel, n) =>
        .ambiguous (names.filter fun n => pyLower n == pyLower query) :: .canceled ::
          session os names asg viewed (rest.drop n)
      | (.chosen rn, n) =>
        .ambiguous (names.filter fun n => pyLower n == pyLower query) ::
          (revealOutcome os asg viewed rn).1 ::
            session os names asg (revealOutcome os asg viewed rn).2 (rest.drop n) := by
  have hni : (names.filter fun n => pyLower n == pyLower query).isEmpty = false := by
    cases hc : names.filter fun n => pyLower n == pyLower query with
    | nil => rw [hc] at h2; simp at h2
    | cons a l => rfl
  have hlen1 : ¬((names.filter fun n => pyLower n == pyLower query).length = 1) := by
    omega
  simp only [session, hq]
  rw [if_neg hne, if_neg hex, hni]
  rw [if_neg (by simp), if_neg hnm, if_neg hlen1]

/-- C4: a query matching two or more case-variant participants (and none
exactly) enters the disambiguation flow: the session emits the full
candidate list; a cancel keyword (`cancel`/`abort`/`back`, any case) returns
to the main prompt with nothing revealed and the ledger unchanged; an
in-range 1-based ordinal selects the corresponding candidate; an exact
candidate name selects it. -/
theorem disambiguation_flow (os : Bool) (names : List String)
    (asg : List (String × String)) (viewed : List String) (query : String)
    (hq : pyStrip query = query) (hne : query ≠ "")
    (hex : ¬(pyLower query = "exit" ∨ pyLower query = "quit"))
    (hnm : query ∉ names.filter fun n => pyLower n == pyLower query)
    (h2 : 2 ≤ (names.filter fun n => pyLower n == pyLower query).length) :
    (∀ rest, ∃ tail,
      session os names asg viewed (query :: rest) =
        .ambiguous (names.filter fun n => pyLower n == pyLower query) :: tail) ∧
    (∀ sel more, pyStrip sel ≠ "" →
      (pyLower (pyStrip sel) = "cancel" ∨ pyLower (pyStrip sel) = "abort" ∨
        pyLower (pyStrip sel) = "back") →
      session os names asg viewed (query :: sel :: more) =
        .ambiguous (names.filter fun n => pyLower n == pyLower query) :: .canceled ::
          session os names asg viewed more) ∧
    (∀ sel more idx, pyStrip sel ≠ "" →
      ¬(pyLower (pyStrip sel) = "cancel" ∨ pyLower (pyStrip sel) = "abort" ∨
        pyLower (pyStrip sel) = "back") →
      pyToNat? (pyStrip sel) = some idx → 1 ≤ idx →
      idx ≤ (names.filter fun n => pyLower n == pyLower query).length →
      resolveDisamb (names.filter fun n => pyLower n == pyLower query) (sel :: more) =
        (.chosen ((names.filter fun n => pyLower n == pyLower query).getD (idx - 1) ""), 1)) ∧
    (∀ sel more, pyStrip sel = sel → sel ≠ "" →
      ¬(pyLower sel = "cancel" ∨ pyLower sel = "abort" ∨ pyLower sel = "back") →
      pyToNat? sel = none → sel ∈ (names.filter fun n => pyLower n == pyLower query) →
      resolveDisamb (names.filter fun n => pyLower n == pyLower query) (sel :: more) =
        (.chosen sel, 1)) := by
  refine ⟨?_, ?_, ?_, ?_⟩
  · intro rest
    rw [session_cons_ambiguous os names asg viewed query rest hq hne hex hnm h2]
    rcases hr : resolveDisamb (names.filter fun n => pyLower n == pyLower query) rest
      with ⟨o, n⟩
    cases o with
    | eofEnd => exact ⟨[.eof], rfl⟩
    | cancel =>
      exact ⟨.canceled :: session os names asg viewed (rest.drop n), rfl⟩
    | chosen rn =>
      exact ⟨(revealOutcome os asg viewed rn).1 ::
        session os names asg (revealOutcome os asg viewed rn).2 (rest.drop n), rfl⟩
  · intro sel more hsne hk
    rw [session_cons_ambiguous os names asg viewed query (sel :: more) hq hne hex hnm h2]
    rw [resolveDisamb_cancel _ sel more hsne hk]
    rfl
  · intro sel more idx hsne hnc hdig hi1 hi2
    exact resolveDisamb_ordinal _ sel more idx hsne hnc hdig hi1 hi2
  · intro sel more hsq hsne hnc hdig hmem
    exact resolveDisamb_exact _ sel more hsq hsne hnc hdig hmem

/-- Concrete instantiation of `disambiguation_flow`: querying `ALICE`
against participants `Alice` and `alice`, then canceling. -/
theorem disambiguation_flow_witness :
    2 ≤ ((["Alice", "alice", "Bob"].filter
      fun n => pyLower n == pyLower "ALICE") : List String).length ∧
    session true ["Alice", "alice", "Bob"] [("Alice", "alice"), ("alice", "Bob"), ("Bob", "Alice")]
        [] ["ALICE", "cancel", "Bob"] =
      .ambiguous (["Alice", "alice", "Bob"].filter fun n => pyLower n == pyLower "ALICE") ::
        .canceled ::
          session true ["Alice", "alice", "Bob"]
            [("Alice", "alice"), ("alice", "Bob"), ("Bob", "Alice")] [] ["Bob"] :=
  ⟨by decide,
    (disambiguation_flow true ["Alice", "alice", "Bob"]
      [("Alice", "alice"), ("alice", "Bob"), ("Bob", "Alice")] [] "ALICE"
      (by decide) (by decide) (by decide) (by decide) (by decide)).2.1
      "cancel" ["Bob"] (by decide) (by decide)⟩

end Trustee
